import Mathlib

/-!
Verification of the decoding and aggregation pipeline of the Instagram Chat
Analyzer (src/App.tsx).

Modelling conventions:
* JavaScript strings are modelled as lists of UTF-16 code units
  (`List Nat`); `utf8.decode` first combines surrogate pairs into code
  points (utf8.js `ucs2decode`), takes each code point's low 8 bits as a
  byte, decodes that byte stream as UTF-8 and re-encodes the resulting
  code points as UTF-16 code units (utf8.js `ucs2encode`).
* A thrown JavaScript exception is modelled as `none` of an `Option`.
* JavaScript objects used as dictionaries (`userMessages`,
  `messageCounts`) are modelled as insertion-ordered association lists;
  prototype-chain artefacts of property access are outside the model.
  `Object.keys` / `Object.entries` enumeration order (ECMA-262
  OrdinaryOwnPropertyKeys: own keys that are array indices first, in
  ascending numeric order, then the remaining string keys in insertion
  order) is modelled by `jsOwnOrder`.
* `Array.prototype.sort` with a consistent comparator is a stable sort
  (ES2019); for a total preorder the stable sorted result is unique, so
  it is modelled by the stable insertion sort `sortStable`.
* `Array.prototype.slice` index normalisation is modelled by `jsSlice`.
-/

/-- One UTF-16 code unit of whitespace recognised by
`String.prototype.trim` (ECMA-262 TrimString: WhiteSpace and
LineTerminator code points). -/
def isWS (c : Nat) : Bool :=
  c = 9 || c = 10 || c = 11 || c = 12 || c = 13 || c = 32 || c = 160 ||
  c = 5760 || (8192 ≤ c && c ≤ 8202) || c = 8232 || c = 8233 ||
  c = 8239 || c = 8287 || c = 12288 || c = 65279

/-- JavaScript `s.trim()`: remove leading and trailing whitespace. -/
def jsTrim (s : List Nat) : List Nat :=
  ((s.dropWhile isWS).reverse.dropWhile isWS).reverse

/-- JavaScript `s.toLowerCase()` on the ASCII range: code units 65–90 map to 97–122,
everything else in the ASCII range is fixed.  (For non-ASCII code units
the JavaScript mapping can differ, but every content string containing a
non-ASCII code unit is removed by the ASCII filter of `filterMessages`
independently of the lower-cased text, so the filter's outcome agrees
with the source on all inputs.) -/
def asciiLower (s : List Nat) : List Nat :=
  s.map (fun c => if 65 ≤ c ∧ c ≤ 90 then c + 32 else c)

/-- Does `s` start with `pat`? -/
def leadsWith : List Nat → List Nat → Bool
  | [], _ => true
  | _ :: _, [] => false
  | p :: ps, c :: cs => p == c && leadsWith ps cs

/-- JavaScript `s.includes(pat)`: does `s` contain `pat` as a contiguous run? -/
def containsSeq (pat : List Nat) : List Nat → Bool
  | [] => leadsWith pat []
  | c :: rest => leadsWith pat (c :: rest) || containsSeq pat rest

/-- Stable insertion of `x` into `l`: `x` is placed before the first
element `y` with `le x y` (so, scanning past every `y` with
`le x y = false`). -/
def insertStable (le : α → α → Bool) (x : α) : List α → List α
  | [] => [x]
  | y :: ys => if le x y then x :: y :: ys else y :: insertStable le x ys

/-- Stable insertion sort.  When `le` is a total preorder with ties
resolved to `true`, this is the unique stable sort and hence the result
of `Array.prototype.sort` under the corresponding comparator. -/
def sortStable (le : α → α → Bool) : List α → List α
  | [] => []
  | x :: xs => insertStable le x (sortStable le xs)

/-- JavaScript `l.slice(s, e)` (ECMA-262): negative indices count from the end,
indices are clamped to `[0, length]`, and the result is the elements at
positions `k` with `start <= k < end`. -/
def jsSlice (l : List α) (s e : Int) : List α :=
  (l.take (if e < 0 then ((l.length : Int) + e).toNat else min e.toNat l.length)).drop
    (if s < 0 then ((l.length : Int) + s).toNat else min s.toNat l.length)

/-- Decimal digit. -/
def isDigit (c : Nat) : Bool := 48 ≤ c && c ≤ 57

/-- Numeric value of a string of decimal digits. -/
def digitsToNat (s : List Nat) : Nat :=
  s.foldl (fun acc c => acc * 10 + (c - 48)) 0

/-- Is the string an ECMA-262 array index: the canonical decimal form
(no leading zero except for the string consisting of the single digit 0)
of an integer in `[0, 2^32 - 2]`?  Such property keys are enumerated
first, in ascending numeric order, by `Object.keys` / `Object.entries`. -/
def isArrayIndex (s : List Nat) : Bool :=
  !s.isEmpty && s.all isDigit && (s.head? != some 48 || s == [48]) &&
    digitsToNat s < 4294967295

/-- Own-property enumeration order of a JavaScript object whose
insertion-ordered properties are `l`: array-index keys first in
ascending numeric order, then the remaining keys in insertion order. -/
def jsOwnOrder (l : List (List Nat × β)) : List (List Nat × β) :=
  sortStable (fun a b => decide (digitsToNat a.1 ≤ digitsToNat b.1))
      (l.filter fun p => isArrayIndex p.1) ++
    l.filter fun p => !isArrayIndex p.1

/-- The utf8.js `ucs2decode` step: view a list of UTF-16 code units as code
points, combining a high surrogate followed by a low surrogate into one
supplementary code point and passing lone surrogates through. -/
def ucs2decode : List Nat → List Nat
  | [] => []
  | [c] => [c]
  | c :: c2 :: rest2 =>
    if 55296 ≤ c ∧ c ≤ 56319 then
      if 56320 ≤ c2 ∧ c2 ≤ 57343 then
        ((c - 55296) * 1024 + (c2 - 56320) + 65536) :: ucs2decode rest2
      else c :: ucs2decode (c2 :: rest2)
    else c :: ucs2decode (c2 :: rest2)

/-- The utf8.js `ucs2encode` step for one code point: split a supplementary code
point into a surrogate pair, leave basic-plane code points alone. -/
def ucs2encode (cp : Nat) : List Nat :=
  if 65536 ≤ cp then
    [55296 + (cp - 65536) / 1024, 56320 + (cp - 65536) % 1024]
  else [cp]

/-- A UTF-8 continuation byte: `(b & 0xC0) == 0x80`, written
arithmetically for `b < 256` as `128 ≤ b < 192`. -/
def isCont (b : Nat) : Bool := 128 ≤ b && b < 192

/-- Code point of a 2-byte sequence:
`((b1 & 0x1F) << 6) | (b2 & 0x3F)`, written arithmetically for lead
bytes in `[192, 224)` and continuation bytes in `[128, 192)`. -/
def cp2 (b1 b2 : Nat) : Nat := (b1 - 192) * 64 + (b2 - 128)

/-- Validity of a 2-byte sequence: continuation byte present and
`codePoint >= 0x80`. -/
def valid2 (b1 b2 : Nat) : Bool := isCont b2 && 128 ≤ cp2 b1 b2

/-- Code point of a 3-byte sequence:
`((b1 & 0x0F) << 12) | ((b2 & 0x3F) << 6) | (b3 & 0x3F)`. -/
def cp3 (b1 b2 b3 : Nat) : Nat :=
  (b1 - 224) * 4096 + (b2 - 128) * 64 + (b3 - 128)

/-- Validity of a 3-byte sequence: continuation bytes present,
`codePoint >= 0x0800`, and `checkScalarValue`: not a lone surrogate. -/
def valid3 (b1 b2 b3 : Nat) : Bool :=
  isCont b2 && isCont b3 && 2048 ≤ cp3 b1 b2 b3 &&
    !(55296 ≤ cp3 b1 b2 b3 && cp3 b1 b2 b3 ≤ 57343)

/-- Code point of a 4-byte sequence:
`((b1 & 0x07) << 0x12) | ((b2 & 0x3F) << 0x0C) | ((b3 & 0x3F) << 6) | (b4 & 0x3F)`. -/
def cp4 (b1 b2 b3 b4 : Nat) : Nat :=
  (b1 - 240) * 262144 + (b2 - 128) * 4096 + (b3 - 128) * 64 + (b4 - 128)

/-- Validity of a 4-byte sequence: continuation bytes present and
`0x010000 <= codePoint <= 0x10FFFF`. -/
def valid4 (b1 b2 b3 b4 : Nat) : Bool :=
  isCont b2 && isCont b3 && isCont b4 &&
    65536 ≤ cp4 b1 b2 b3 b4 && cp4 b1 b2 b3 b4 ≤ 1114111

/-- The utf8.js `decode` byte-stream loop (`decodeSymbol`), on bytes already
reduced mod 256.  The branch conditions are the source's mask tests
written arithmetically for bytes `b < 256`:
`(b & 0x80) == 0` is `b < 128`; `(b & 0xE0) == 0xC0` is `192 ≤ b < 224`;
`(b & 0xF0) == 0xE0` is `224 ≤ b < 240`; `(b & 0xF8) == 0xF0` is
`240 ≤ b < 248`.  Any decode error (`none`) models the thrown
exception.  Each step consumes at least one byte, so the recursion is by
the length of the byte list; the fuel argument makes that structural
recursion explicit, and the fuel-exhausted arm is unreachable whenever
the fuel is at least the list length. -/
def utf8decodeAux : Nat → List Nat → Option (List Nat)
  | _, [] => some []
  | 0, _ :: _ => none
  | fuel + 1, b1 :: rest =>
    if b1 < 128 then (utf8decodeAux fuel rest).map (b1 :: ·)
    else if b1 < 192 then none
    else if b1 < 224 then
      match rest with
      | b2 :: rest2 =>
        if valid2 b1 b2 then (utf8decodeAux fuel rest2).map (cp2 b1 b2 :: ·)
        else none
      | [] => none
    else if b1 < 240 then
      match rest with
      | b2 :: b3 :: rest3 =>
        if valid3 b1 b2 b3 then
          (utf8decodeAux fuel rest3).map (cp3 b1 b2 b3 :: ·)
        else none
      | _ => none
    else if b1 < 248 then
      match rest with
      | b2 :: b3 :: b4 :: rest4 =>
        if valid4 b1 b2 b3 b4 then
          (utf8decodeAux fuel rest4).map (cp4 b1 b2 b3 b4 :: ·)
        else none
      | _ => none
    else none

/-- The utf8.js `decode` byte-stream loop on a byte list. -/
def utf8decodeBytes (s : List Nat) : Option (List Nat) :=
  utf8decodeAux s.length s

/-- The utf8.js `decode` function on a list of UTF-16 code units: combine surrogate
pairs, take each code point's low 8 bits as a byte, decode the byte
stream as UTF-8 and re-encode the code points as UTF-16 code units. -/
def utf8DecodeStr (s : List Nat) : Option (List Nat) :=
  (utf8decodeBytes ((ucs2decode s).map (fun c => c % 256))).map
    (fun cps => (cps.map ucs2encode).flatten)

/-- Hexadecimal digit, as matched by the pattern `[0-9a-fA-F]`. -/
def isHexDigit (c : Nat) : Bool :=
  (48 ≤ c && c ≤ 57) || (97 ≤ c && c ≤ 102) || (65 ≤ c && c ≤ 70)

/-- Value of one hexadecimal digit code unit. -/
def hexVal (c : Nat) : Nat :=
  if 48 ≤ c && c ≤ 57 then c - 48 else if 97 ≤ c then c - 87 else c - 55

/-- First pass of `decodeUnicode`: the global regex replacement of every
literal `\uXXXX` occurrence (backslash, letter u, four hex digits) by
`String.fromCharCode(parseInt(XXXX, 16))`, a single code unit.  The
regex engine scans left to right: at a position where the pattern
matches, six code units are consumed and one emitted; otherwise one code
unit is copied and scanning continues at the next position. -/
def replaceEscapes : List Nat → List Nat
  | 92 :: 117 :: a :: b :: c :: d :: rest =>
    if isHexDigit a && isHexDigit b && isHexDigit c && isHexDigit d then
      (hexVal a * 4096 + hexVal b * 256 + hexVal c * 16 + hexVal d) ::
        replaceEscapes rest
    else 92 :: replaceEscapes (117 :: a :: b :: c :: d :: rest)
  | x :: rest => x :: replaceEscapes rest
  | [] => []

/-- Does the string contain a literal `\uXXXX` escape (backslash, letter
u, four hex digits) anywhere? -/
def hasEscape : List Nat → Bool
  | 92 :: 117 :: a :: b :: c :: d :: rest =>
    (isHexDigit a && isHexDigit b && isHexDigit c && isHexDigit d) ||
      hasEscape (117 :: a :: b :: c :: d :: rest)
  | _ :: rest => hasEscape rest
  | [] => false

/-- The function `decodeUnicode` (App.tsx lines 44–57), the spec's Text Repair
`repair`: empty (falsy) input returns the empty string; otherwise the
literal `\uXXXX` escapes are replaced and the result is decoded by
`utf8.decode`. -/
def decodeUnicode (s : List Nat) : Option (List Nat) :=
  if s.isEmpty then some [] else utf8DecodeStr (replaceEscapes s)

/-- The canonical `Message` record (App.tsx lines 34–38). -/
structure Message where
  sender_name : List Nat
  content : List Nat
  timestamp_ms : Option Int
deriving DecidableEq, Repr

/-- A raw message record from the parsed JSON: each field may be absent
(or otherwise falsy, which `msg.content || ""` treats like the empty
string). -/
structure RawMessage where
  sender_name : Option (List Nat)
  content : Option (List Nat)
  timestamp_ms : Option Int
deriving DecidableEq, Repr

/-- One iteration of the normalization loop of `handleFileUpload`
(App.tsx lines 181–205) up to the point of a successful decode: default
the missing fields to the empty string, then decode content and sender
name with `utf8.decode`.  If either decode throws, the `catch` block
logs the error and the iteration ends without pushing anything, so the
whole message yields `none`. -/
def normMsg (raw : RawMessage) : Option Message :=
  match utf8DecodeStr (raw.content.getD []), utf8DecodeStr (raw.sender_name.getD []) with
  | some c, some s => some ⟨s, c, raw.timestamp_ms⟩
  | _, _ => none

/-- Append a decoded message to its sender's sequence in the
`userMessages` association list, creating the key at the end on first
appearance (JavaScript object insertion order). -/
def pushMsg : List (List Nat × List Message) → Message → List (List Nat × List Message)
  | [], m => [(m.sender_name, [m])]
  | (k, ms) :: rest, m =>
    if k = m.sender_name then (k, ms ++ [m]) :: rest
    else (k, ms) :: pushMsg rest m

/-- The per-upload normalization loop of `handleFileUpload` (App.tsx
lines 181–205), the spec's `normalize`: fold over the raw messages,
pushing each successfully decoded message and dropping each message
whose decode throws. -/
def normalizeMessages (l : List RawMessage) : List (List Nat × List Message) :=
  l.foldl (fun acc raw =>
    match normMsg raw with
    | some m => pushMsg acc m
    | none => acc) []

/-- Total number of messages over all senders of a `UserMessages`
association list. -/
def totalCount (um : List (List Nat × List Message)) : Nat :=
  (um.map fun p => p.2.length).sum

/-- Code units of the lower-case string "liked a message". -/
def likedPat : List Nat := [108, 105, 107, 101, 100, 32, 97, 32, 109, 101, 115, 115, 97, 103, 101]

/-- Code units of the string "attachment". -/
def attachPat : List Nat := [97, 116, 116, 97, 99, 104, 109, 101, 110, 116]

/-- Code units of the string "like". -/
def likePat : List Nat := [108, 105, 107, 101]

/-- The filter predicate of `filterMessages` (App.tsx lines 70–77),
applied to a message whose content has already been trimmed: non-empty
content (empty string is falsy), no banned substring in the lower-cased
content, and no code unit outside the 7-bit ASCII range (the regex
`[^\u0000-\u007F]` test). -/
def keepMessage (m : Message) : Bool :=
  !m.content.isEmpty &&
  !containsSeq likedPat (asciiLower m.content) &&
  !containsSeq attachPat (asciiLower m.content) &&
  !containsSeq likePat (asciiLower m.content) &&
  m.content.all (fun c => c ≤ 127)

/-- The function `filterMessages` (App.tsx lines 64–78): trim every message's
content, then keep the messages passing `keepMessage`. -/
def filterMessages (msgs : List Message) : List Message :=
  (msgs.map fun m => { m with content := jsTrim m.content }).filter keepMessage

/-- One step of the `messageCounts` accumulation of `getTopMessages`
(App.tsx lines 86–88): increment the count stored under a content key,
inserting the key at the end on first appearance. -/
def bumpCount : List (List Nat × Nat) → List Nat → List (List Nat × Nat)
  | [], k => [(k, 1)]
  | (k1, n) :: rest, k =>
    if k1 = k then (k1, n + 1) :: rest else (k1, n) :: bumpCount rest k

/-- The content-count object `messageCounts` of `getTopMessages`: occurrence counts of
the distinct content strings of the filtered messages, keyed in
first-seen order. -/
def buildCounts (msgs : List Message) : List (List Nat × Nat) :=
  msgs.foldl (fun acc m => bumpCount acc m.content) []

/-- Comparator order of `(a, b) => b[1] - a[1]` (and of
`(a, b) => b.count - a.count`): descending by count, ties `true`. -/
def leCountDesc (a b : α × Nat) : Bool := decide (b.2 ≤ a.2)

/-- The function `getTopMessages` (App.tsx lines 80–114) as the ranked
(label, count) sequence: `Object.entries(messageCounts)` in own-property
order, stably sorted descending by count, truncated by `.slice(0, 7)`.
The source returns the chart structure whose `labels` and `data` are the
two projections of this sequence. -/
def getTopMessages (msgs : List Message) : List (List Nat × Nat) :=
  jsSlice (sortStable leCountDesc (jsOwnOrder (buildCounts (filterMessages msgs)))) 0 7

/-- First value stored under a key of an association list. -/
def assocLookup : List (List Nat × β) → List Nat → Option β
  | [], _ => none
  | (k, v) :: rest, u => if k = u then some v else assocLookup rest u

/-- The function `getChartData` (App.tsx lines 217–251) as the ranked
(sender, count) sequence: `Object.keys(data)` in own-property order,
each mapped to the length of its message sequence, stably sorted
descending by count and truncated by `.slice(0, 7)`.  The source returns
the chart structure whose `labels` and `data` are the two projections of
this sequence. -/
def getChartData (data : List (List Nat × List Message)) : List (List Nat × Nat) :=
  let userLabels := (jsOwnOrder data).map fun p => p.1
  let messageCounts := userLabels.map fun u => (u, ((assocLookup data u).getD []).length)
  jsSlice (sortStable leCountDesc messageCounts) 0 7

/-- Truthiness of `msg.timestamp_ms` for an integer-or-absent timestamp:
present and non-zero. -/
def truthyTs (m : Message) : Bool :=
  match m.timestamp_ms with
  | some t => t != 0
  | none => false

/-- Timestamp value used by the sort comparator
`(a, b) => a.timestamp_ms! - b.timestamp_ms!`. -/
def tsVal (m : Message) : Int := m.timestamp_ms.getD 0

/-- The function `getSortedMessagesAscending` (App.tsx lines 116–120): keep the
messages with truthy `timestamp_ms`, stably sorted ascending by
timestamp. -/
def getSortedMessagesAscending (msgs : List Message) : List Message :=
  sortStable (fun a b => decide (tsVal a ≤ tsVal b)) (msgs.filter truthyTs)

/-- The function `getLatestMessages` (App.tsx lines 122–125):
`sortedMessages.slice(-count)`. -/
def getLatestMessages (msgs : List Message) (count : Int) : List Message :=
  let s := getSortedMessagesAscending msgs
  jsSlice s (-count) (s.length : Int)

/-- The function `getEarliestMessages` (App.tsx lines 127–130):
`sortedMessages.slice(0, count)`. -/
def getEarliestMessages (msgs : List Message) (count : Int) : List Message :=
  jsSlice (getSortedMessagesAscending msgs) 0 count

/-- A raw message whose content is the single code unit 0x80: a byte
stream consisting of a lone UTF-8 continuation byte, on which
`utf8.decode` throws. -/
def badRaw : RawMessage := ⟨some [65], some [128], none⟩

/-- Code units of the 12-character ASCII text consisting of the two
literal escapes for the code units 0xC3 and 0xA9 — the double-encoded
form of é written as unresolved escapes. -/
def escList : List Nat := [92, 117, 48, 48, 99, 51, 92, 117, 48, 48, 97, 57]

/-- A raw message whose content is the literal 12-character escape
text `escList`. -/
def escRaw : RawMessage := ⟨some [65], some escList, none⟩

/-- A raw message with all three fields present and cleanly decodable. -/
def tsRaw : RawMessage := ⟨some [66], some [104, 105], some 12345⟩

/-- A message with timestamp 1. -/
def msgT1 : Message := ⟨[65], [104], some 1⟩

/-- A message with timestamp 2. -/
def msgT2 : Message := ⟨[66], [105], some 2⟩

/-- A message whose `timestamp_ms` is present and equal to 0. -/
def msgT0 : Message := ⟨[65], [104], some 0⟩

/-- Two messages from sender A whose contents are the strings "10" and
"2", in that input order. -/
def msgs10and2 : List Message := [⟨[65], [49, 48], none⟩, ⟨[65], [50], none⟩]

/-- A sender mapping with two senders: A has two messages (one of them
an emoji-only message, the surrogate pair for U+1F600), B has one. -/
def chartData : List (List Nat × List Message) :=
  [([65], [⟨[65], [55357, 56832], none⟩, ⟨[65], [104], some 1⟩]),
   ([66], [⟨[66], [105], none⟩])]

theorem mem_insertStable (le : α → α → Bool) (x : α) (l : List α) (a : α) :
    a ∈ insertStable le x l ↔ a = x ∨ a ∈ l := by
  induction l with
  | nil => simp [insertStable]
  | cons y ys ih =>
    by_cases h : le x y = true
    · simp [insertStable, h]
    · simp only [insertStable, h, Bool.false_eq_true, if_false, List.mem_cons, ih]
      tauto

theorem insertStable_perm (le : α → α → Bool) (x : α) (l : List α) :
    List.Perm (insertStable le x l) (x :: l) := by
  induction l with
  | nil => simp [insertStable]
  | cons y ys ih =>
    by_cases h : le x y = true
    · simp [insertStable, h]
    · simp only [insertStable, h, Bool.false_eq_true, if_false]
      exact (ih.cons y).trans (List.Perm.swap x y ys)

theorem sortStable_perm (le : α → α → Bool) (l : List α) :
    List.Perm (sortStable le l) l := by
  induction l with
  | nil => simp [sortStable]
  | cons x xs ih =>
    exact (insertStable_perm le x (sortStable le xs)).trans (ih.cons x)

theorem insertStable_eq_takeWhile_dropWhile (le : α → α → Bool) (x : α)
    (l : List α) :
    insertStable le x l =
      (l.takeWhile fun y => !le x y) ++ x :: (l.dropWhile fun y => !le x y) := by
  induction l with
  | nil => simp [insertStable]
  | cons y ys ih =>
    by_cases h : le x y = true
    · simp [insertStable, h, List.takeWhile_cons, List.dropWhile_cons]
    · simp [insertStable, h, List.takeWhile_cons, List.dropWhile_cons, ih]

theorem insertStable_pairwise (le : α → α → Bool)
    (htot : ∀ a b, le a b = true ∨ le b a = true)
    (htr : ∀ a b c, le a b = true → le b c = true → le a c = true)
    (x : α) (l : List α) (hl : l.Pairwise fun a b => le a b = true) :
    (insertStable le x l).Pairwise fun a b => le a b = true := by
  induction l with
  | nil => simp [insertStable]
  | cons y ys ih =>
    rw [List.pairwise_cons] at hl
    by_cases h : le x y = true
    · rw [insertStable, if_pos h, List.pairwise_cons]
      refine ⟨?_, List.pairwise_cons.2 hl⟩
      intro z hz
      rcases List.mem_cons.1 hz with hz | hz
      · exact hz ▸ h
      · exact htr x y z h (hl.1 z hz)
    · rw [insertStable, if_neg h, List.pairwise_cons]
      refine ⟨?_, ih hl.2⟩
      intro z hz
      rcases (mem_insertStable le x ys z).1 hz with hz | hz
      · rcases htot x y with hxy | hyx
        · exact absurd hxy h
        · exact hz ▸ hyx
      · exact hl.1 z hz

theorem sortStable_sorted (le : α → α → Bool)
    (htot : ∀ a b, le a b = true ∨ le b a = true)
    (htr : ∀ a b c, le a b = true → le b c = true → le a c = true)
    (l : List α) :
    (sortStable le l).Pairwise fun a b => le a b = true := by
  induction l with
  | nil => simp [sortStable]
  | cons x xs ih => exact insertStable_pairwise le htot htr x _ ih

theorem sortStable_stable (le : α → α → Bool) (l : List α) :
    (sortStable le l).Pairwise fun a b =>
      le b a = true → List.Sublist [a, b] l := by
  induction l with
  | nil => simp [sortStable]
  | cons x xs ih =>
    rw [sortStable, insertStable_eq_takeWhile_dropWhile]
    have hsplit : (sortStable le xs).takeWhile (fun y => !le x y) ++
        (sortStable le xs).dropWhile (fun y => !le x y) = sortStable le xs :=
      List.takeWhile_append_dropWhile _ _
    have ihsplit : ((sortStable le xs).takeWhile (fun y => !le x y) ++
        (sortStable le xs).dropWhile (fun y => !le x y)).Pairwise
        (fun a b => le b a = true → List.Sublist [a, b] xs) := by
      rw [hsplit]; exact ih
    rw [List.pairwise_append] at ihsplit
    obtain ⟨htw, hdw, hcross⟩ := ihsplit
    rw [List.pairwise_append]
    refine ⟨?_, ?_, ?_⟩
    · exact htw.imp fun h hle => (h hle).cons x
    · rw [List.pairwise_cons]
      refine ⟨?_, hdw.imp fun h hle => (h hle).cons x⟩
      intro b hb _
      have hbs : b ∈ sortStable le xs := by
        rw [← hsplit]
        exact List.mem_append_right _ hb
      have hbxs : b ∈ xs := (sortStable_perm le xs).mem_iff.1 hbs
      exact List.Sublist.cons₂ x (List.singleton_sublist.2 hbxs)
    · intro a ha b hb
      rcases List.mem_cons.1 hb with hb | hb
      · subst hb
        intro hle
        have := List.mem_takeWhile_imp ha
        simp only [Bool.not_eq_eq_eq_not, Bool.not_true] at this
        rw [this] at hle
        exact absurd hle (by simp)
      · exact fun hle => (hcross a ha b hb hle).cons x

theorem mem_of_mem_jsOwnOrder {l : List (List Nat × β)} {e : List Nat × β}
    (h : e ∈ jsOwnOrder l) : e ∈ l := by
  rcases List.mem_append.1 h with h | h
  · exact List.mem_filter.1
      ((sortStable_perm _ (l.filter fun p => isArrayIndex p.1)).mem_iff.1 h) |>.1
  · exact (List.mem_filter.1 h).1

theorem totalCount_pushMsg (um : List (List Nat × List Message)) (m : Message) :
    totalCount (pushMsg um m) = totalCount um + 1 := by
  induction um with
  | nil => simp [pushMsg, totalCount]
  | cons p rest ih =>
    obtain ⟨k, ms⟩ := p
    by_cases h : k = m.sender_name
    · simp [pushMsg, h, totalCount]
      omega
    · simp only [pushMsg, h, if_false, totalCount, List.map_cons, List.sum_cons]
      have := ih
      simp only [totalCount] at this
      omega

theorem totalCount_foldl (l : List RawMessage)
    (acc : List (List Nat × List Message)) :
    totalCount (l.foldl (fun acc raw =>
        match normMsg raw with
        | some m => pushMsg acc m
        | none => acc) acc) =
      totalCount acc + (l.filter fun r => (normMsg r).isSome).length := by
  induction l generalizing acc with
  | nil => simp
  | cons raw rest ih =>
    rw [List.foldl_cons, ih]
    cases h : normMsg raw with
    | some m =>
      simp only [h, List.filter_cons, Option.isSome_some, if_true,
        List.length_cons, totalCount_pushMsg]
      omega
    | none =>
      simp only [h, List.filter_cons, Option.isSome_none, Bool.false_eq_true,
        if_false]

/-- Claim C1 (amended).  The normalization loop never throws — it is a
total function — and the total number of messages over all senders
equals the number of input messages on which the `utf8.decode` of both
the content and the sender name succeeds; a raw message on which either
decode throws is dropped (the `catch` block only logs), so the total is
not in general the input length. -/
theorem c1_total_count_decodable (l : List RawMessage) :
    totalCount (normalizeMessages l) =
      (l.filter fun r => (normMsg r).isSome).length := by
  rw [normalizeMessages, totalCount_foldl]
  simp [totalCount]

/-- Claim C1 (counterexample).  On the one-element list `[badRaw]` the
normalization loop returns a mapping with total message count 0, not 1:
the message is dropped, so the total count does not equal the input
length as the claim states. -/
theorem c1_counterexample :
    totalCount (normalizeMessages [badRaw]) = 0 ∧
      totalCount (normalizeMessages [badRaw]) ≠ ([badRaw] : List RawMessage).length := by
  constructor <;> decide

/-- Claim C2 (counterexample).  Text Repair (the `utf8.decode` call) fails
on `badRaw`'s content field, and the resulting mapping is empty: the
message is not kept with the failing field set to its pre-repair value —
it is dropped entirely, contrary to the claim. -/
theorem c2_counterexample :
    utf8DecodeStr (badRaw.content.getD []) = none ∧
      normalizeMessages [badRaw] = [] := by
  constructor <;> decide

/-- Claim C2 (amended).  When `utf8.decode` throws on either field of a
raw message, that message is dropped entirely (the error is logged) and
the rest of the upload continues unaffected: the result is exactly the
result of normalizing the input without the failing message. -/
theorem c2_failed_decode_drops_message (pre post : List RawMessage)
    (bad : RawMessage) (h : normMsg bad = none) :
    normalizeMessages (pre ++ bad :: post) = normalizeMessages (pre ++ post) := by
  unfold normalizeMessages
  rw [List.foldl_append, List.foldl_append, List.foldl_cons, h]

/-- Claim C2 (witness). -/
theorem c2_witness :
    normMsg badRaw = none ∧
      normalizeMessages ([⟨some [66], some [104], none⟩] ++ badRaw :: []) =
        normalizeMessages ([⟨some [66], some [104], none⟩] ++ []) :=
  ⟨by decide, c2_failed_decode_drops_message _ [] badRaw (by decide)⟩

theorem mem_pushMsg (acc : List (List Nat × List Message)) (m' : Message)
    (k : List Nat) (ms : List Message) (m : Message)
    (hk : (k, ms) ∈ pushMsg acc m') (hm : m ∈ ms) :
    (∃ ms0, (k, ms0) ∈ acc ∧ m ∈ ms0) ∨ (m = m' ∧ k = m'.sender_name) := by
  induction acc with
  | nil =>
    simp only [pushMsg, List.mem_singleton, Prod.mk.injEq] at hk
    obtain ⟨hk1, hk2⟩ := hk
    subst hk1
    subst hk2
    simp only [List.mem_singleton] at hm
    exact Or.inr ⟨hm, rfl⟩
  | cons p rest ih =>
    obtain ⟨k1, ms1⟩ := p
    by_cases h : k1 = m'.sender_name
    · rw [pushMsg, if_pos h] at hk
      rcases List.mem_cons.1 hk with hk | hk
      · rw [Prod.mk.injEq] at hk
        obtain ⟨hk1, hk2⟩ := hk
        subst hk1
        subst hk2
        rcases List.mem_append.1 hm with hm | hm
        · exact Or.inl ⟨ms1, List.mem_cons_self .., hm⟩
        · simp only [List.mem_singleton] at hm
          exact Or.inr ⟨hm, h⟩
      · exact Or.inl ⟨ms, List.mem_cons_of_mem _ hk, hm⟩
    · rw [pushMsg, if_neg h] at hk
      rcases List.mem_cons.1 hk with hk | hk
      · rw [Prod.mk.injEq] at hk
        obtain ⟨hk1, hk2⟩ := hk
        refine Or.inl ⟨ms, ?_, hm⟩
        rw [hk1, hk2]
        exact List.mem_cons_self ..
      · rcases ih hk with ⟨ms0, h0, hm0⟩ | h0
        · exact Or.inl ⟨ms0, List.mem_cons_of_mem _ h0, hm0⟩
        · exact Or.inr h0

theorem mem_normalize_foldl (l : List RawMessage)
    (acc : List (List Nat × List Message)) (k : List Nat)
    (ms : List Message) (m : Message)
    (hk : (k, ms) ∈ l.foldl (fun acc raw =>
        match normMsg raw with
        | some m => pushMsg acc m
        | none => acc) acc)
    (hm : m ∈ ms) :
    (∃ ms0, (k, ms0) ∈ acc ∧ m ∈ ms0) ∨
      ∃ raw ∈ l, normMsg raw = some m ∧ k = m.sender_name := by
  induction l generalizing acc with
  | nil => exact Or.inl ⟨ms, hk, hm⟩
  | cons raw rest ih =>
    rw [List.foldl_cons] at hk
    cases h : normMsg raw with
    | some m' =>
      rw [h] at hk
      rcases ih (pushMsg acc m') hk with hacc | ⟨raw2, hraw2, hdec, hsn⟩
      · obtain ⟨ms0, h0, hm0⟩ := hacc
        rcases mem_pushMsg acc m' k ms0 m h0 hm0 with hacc2 | ⟨hmm, hkk⟩
        · exact Or.inl hacc2
        · exact Or.inr ⟨raw, List.mem_cons_self .., hmm ▸ h, hmm ▸ hkk⟩
      · exact Or.inr ⟨raw2, List.mem_cons_of_mem _ hraw2, hdec, hsn⟩
    | none =>
      rw [h] at hk
      rcases ih acc hk with hacc | ⟨raw2, hraw2, hdec, hsn⟩
      · exact Or.inl hacc
      · exact Or.inr ⟨raw2, List.mem_cons_of_mem _ hraw2, hdec, hsn⟩

theorem mem_normalizeMessages (l : List RawMessage) (k : List Nat)
    (ms : List Message) (m : Message)
    (hk : (k, ms) ∈ normalizeMessages l) (hm : m ∈ ms) :
    ∃ raw ∈ l, normMsg raw = some m ∧ k = m.sender_name := by
  rcases mem_normalize_foldl l [] k ms m hk hm with ⟨ms0, h0, _⟩ | h
  · simp at h0
  · exact h

theorem normMsg_some_elim (raw : RawMessage) (m : Message)
    (h : normMsg raw = some m) :
    utf8DecodeStr (raw.content.getD []) = some m.content ∧
      utf8DecodeStr (raw.sender_name.getD []) = some m.sender_name ∧
      m.timestamp_ms = raw.timestamp_ms := by
  unfold normMsg at h
  cases hc : utf8DecodeStr (raw.content.getD []) with
  | none => rw [hc] at h; exact absurd h (by simp)
  | some c =>
    cases hs : utf8DecodeStr (raw.sender_name.getD []) with
    | none => rw [hc, hs] at h; exact absurd h (by simp)
    | some s =>
      rw [hc, hs] at h
      obtain ⟨h1, h2, h3⟩ := Message.mk.injEq .. ▸ (Option.some.injEq .. ▸ h)
      exact ⟨h2 ▸ rfl, h1 ▸ rfl, h3 ▸ rfl⟩

/-- Claim C3 (counterexample).  The normalization loop applies only
`utf8.decode`, not the two-pass `decodeUnicode`: a content field holding
a literal `\uXXXX` escape reaches the canonical `Message` unchanged,
escape unresolved, whereas the full two-pass Text Repair of that content
yields the single code unit 233 (é). -/
theorem c3_counterexample :
    normalizeMessages [escRaw] = [([65], [⟨[65], escList, none⟩])] ∧
      hasEscape escList = true ∧
      decodeUnicode escList = some [233] ∧
      escList ≠ [233] := by
  refine ⟨by decide, by decide, by decide, by decide⟩

/-- Claim C3 (amended).  Every canonical message produced by the
normalization loop has content and sender name obtained from the raw
fields by the single `utf8.decode` pass alone — the literal `\uXXXX`
replacement pass of `decodeUnicode` is not applied. -/
theorem c3_single_pass_decode (l : List RawMessage) (k : List Nat)
    (ms : List Message) (m : Message)
    (hk : (k, ms) ∈ normalizeMessages l) (hm : m ∈ ms) :
    ∃ raw ∈ l, utf8DecodeStr (raw.content.getD []) = some m.content ∧
      utf8DecodeStr (raw.sender_name.getD []) = some m.sender_name := by
  obtain ⟨raw, hraw, hdec, _⟩ := mem_normalizeMessages l k ms m hk hm
  obtain ⟨h1, h2, _⟩ := normMsg_some_elim raw m hdec
  exact ⟨raw, hraw, h1, h2⟩

/-- Claim C3 (witness). -/
theorem c3_witness :
    (([65], [(⟨[65], escList, none⟩ : Message)]) ∈ normalizeMessages [escRaw]) ∧
      ∃ raw ∈ [escRaw],
        utf8DecodeStr (raw.content.getD []) = some escList ∧
          utf8DecodeStr (raw.sender_name.getD []) = some [65] :=
  ⟨by decide,
    c3_single_pass_decode [escRaw] [65] [⟨[65], escList, none⟩]
      ⟨[65], escList, none⟩ (by decide) (by decide)⟩

/-- Claim C10.  Every canonical message kept by the normalization loop
comes from a raw record of the input whose decode succeeded, and its
`timestamp_ms` field is carried over from that raw record unchanged (the
`...msg` spread copies every field other than the two overwritten text
fields). -/
theorem c10_frame_timestamp (l : List RawMessage) (k : List Nat)
    (ms : List Message) (m : Message)
    (hk : (k, ms) ∈ normalizeMessages l) (hm : m ∈ ms) :
    ∃ raw ∈ l, normMsg raw = some m ∧ m.timestamp_ms = raw.timestamp_ms := by
  obtain ⟨raw, hraw, hdec, _⟩ := mem_normalizeMessages l k ms m hk hm
  obtain ⟨_, _, h3⟩ := normMsg_some_elim raw m hdec
  exact ⟨raw, hraw, hdec, h3⟩

/-- Claim C10 (witness). -/
theorem c10_witness :
    (([66], [(⟨[66], [104, 105], some 12345⟩ : Message)]) ∈ normalizeMessages [tsRaw]) ∧
      ∃ raw ∈ [tsRaw], normMsg raw = some ⟨[66], [104, 105], some 12345⟩ ∧
        (some (12345 : Int)) = raw.timestamp_ms :=
  ⟨by decide,
    c10_frame_timestamp [tsRaw] [66] [⟨[66], [104, 105], some 12345⟩]
      ⟨[66], [104, 105], some 12345⟩ (by decide) (by decide)⟩

theorem drop_min_length (l : List α) (a : Nat) :
    l.drop (min a l.length) = l.drop a := by
  rcases Nat.le_total a l.length with h | h
  · rw [Nat.min_eq_left h]
  · rw [Nat.min_eq_right h, List.drop_length, List.drop_eq_nil_of_le h]

/-- Claim C4 (counterexample).  With `n = 0`, `latest` is
`sortedMessages.slice(-0)` which is `slice(0)`, the whole sorted
sequence — not the empty sequence the claim states — while `earliest`
(`slice(0, 0)`) is indeed empty. -/
theorem c4_counterexample :
    getLatestMessages [msgT1] 0 = [msgT1] ∧
      getLatestMessages [msgT1] 0 ≠ [] ∧
      getEarliestMessages [msgT1] 0 = [] := by
  refine ⟨by decide, by decide, by decide⟩

/-- Claim C4 (amended).  For `n ≤ 0` the two selectors follow JavaScript
`slice` index normalisation instead of returning empty sequences:
`latest(msgs, n) = sorted.slice(-n)` drops the first `|n|` elements (for
`n = 0`, the entire sorted sequence is returned), and
`earliest(msgs, n) = sorted.slice(0, n)` is empty for `n = 0` but for
`n < 0` returns all but the last `|n|` elements of the sorted
sequence. -/
theorem c4_nonpositive_count (msgs : List Message) (n : Int) (h : n ≤ 0) :
    getLatestMessages msgs n =
      (getSortedMessagesAscending msgs).drop (-n).toNat ∧
    getEarliestMessages msgs n =
      (if n = 0 then []
       else (getSortedMessagesAscending msgs).take
        (((getSortedMessagesAscending msgs).length : Int) + n).toNat) := by
  constructor
  · rw [getLatestMessages, jsSlice]
    rw [if_neg (by omega), if_neg (by omega), Int.toNat_natCast,
      Nat.min_self, List.take_length, drop_min_length]
  · by_cases h0 : n = 0
    · subst h0
      simp [getEarliestMessages, jsSlice]
    · rw [getEarliestMessages, jsSlice, if_neg h0,
        if_pos (show n < 0 by omega), if_neg (show ¬((0 : Int) < 0) by omega)]
      simp

/-- Claim C4 (witness). -/
theorem c4_witness :
    getLatestMessages [msgT1, msgT2] (-1) = [msgT2] ∧
      getEarliestMessages [msgT1, msgT2] (-1) = [msgT1] :=
  ⟨((c4_nonpositive_count [msgT1, msgT2] (-1) (by decide)).1).trans (by decide),
    ((c4_nonpositive_count [msgT1, msgT2] (-1) (by decide)).2).trans (by decide)⟩

/-- Claim C5 (counterexample).  A message with `timestamp_ms` present but
equal to 0 is excluded from the chronological subsequence: the filter is
the JavaScript truthiness test `msg => msg.timestamp_ms`, and 0 is
falsy, so such a message is not a candidate, contrary to the claim. -/
theorem c5_counterexample :
    getSortedMessagesAscending [msgT0] = [] ∧
      msgT0.timestamp_ms.isSome = true := by
  refine ⟨by decide, by decide⟩

/-- Claim C5 (amended).  `earliest` and `latest` operate on the
subsequence of messages whose `timestamp_ms` is present *and non-zero*
(truthy), sorted ascending by timestamp: the chronological base sequence
is a permutation of exactly the truthy-timestamp messages and is
pairwise ascending. -/
theorem c5_sorted_truthy_timestamps (msgs : List Message) :
    List.Perm (getSortedMessagesAscending msgs) (msgs.filter truthyTs) ∧
      (getSortedMessagesAscending msgs).Pairwise
        (fun a b => tsVal a ≤ tsVal b) := by
  constructor
  · exact sortStable_perm _ _
  · have h := sortStable_sorted (fun a b => decide (tsVal a ≤ tsVal b))
      (fun a b => by
        rcases le_total (tsVal a) (tsVal b) with h | h
        · exact Or.inl (decide_eq_true h)
        · exact Or.inr (decide_eq_true h))
      (fun a b c hab hbc =>
        decide_eq_true (le_trans (of_decide_eq_true hab) (of_decide_eq_true hbc)))
      (msgs.filter truthyTs)
    exact h.imp fun hab => of_decide_eq_true hab

theorem take_min_length (l : List α) (a : Nat) :
    l.take (min a l.length) = l.take a := by
  rcases Nat.le_total a l.length with h | h
  · rw [Nat.min_eq_left h]
  · rw [Nat.min_eq_right h, List.take_length, List.take_of_length_le h]

theorem jsSlice_zero_seven (l : List α) : jsSlice l 0 7 = l.take 7 := by
  rw [jsSlice, if_neg (show ¬((7 : Int) < 0) by omega),
    if_neg (show ¬((0 : Int) < 0) by omega)]
  norm_num [take_min_length, show Int.toNat 7 = 7 from rfl]

/-- Claim C6 (counterexample).  Both contents "10" (first seen first) and
"2" survive filtering with count 1 each, yet `topMessages` returns "2"
before "10": `messageCounts` is a JavaScript object and
`Object.entries` enumerates array-index keys such as "2" and "10" in
ascending numeric order, not in first-seen order, so the tie is not
broken by first-seen order as the claim states. -/
theorem c6_counterexample :
    getTopMessages msgs10and2 = [([50], 1), ([49, 48], 1)] ∧
      (filterMessages msgs10and2).map (fun m => m.content) = [[49, 48], [50]] ∧
      [([50], 1), ([49, 48], 1)] ≠ [([49, 48], 1), ([50], 1)] := by
  refine ⟨by decide, by decide, by decide⟩

/-- Claim C6 (amended).  `topMessages` entries are ordered descending by
count, and entries with equal counts appear in the own-property
enumeration order of the `messageCounts` object (array-index content
strings in ascending numeric order first, then the remaining content
strings in first-seen order): for any two returned entries in order,
the first count is at least the second, and on a tie the ordered pair is
a sublist of the enumerated entries. -/
theorem c6_descending_stable (msgs : List Message) :
    (getTopMessages msgs).Pairwise fun a b =>
      b.2 ≤ a.2 ∧ (a.2 = b.2 →
        List.Sublist [a, b] (jsOwnOrder (buildCounts (filterMessages msgs)))) := by
  rw [getTopMessages, jsSlice_zero_seven]
  refine List.Pairwise.sublist (List.take_sublist _ _) ?_
  have hsorted := sortStable_sorted leCountDesc
    (fun a b => by
      rcases Nat.le_total a.2 b.2 with h | h
      · exact Or.inr (decide_eq_true h)
      · exact Or.inl (decide_eq_true h))
    (fun a b c hab hbc =>
      decide_eq_true (le_trans (of_decide_eq_true hbc) (of_decide_eq_true hab)))
    (jsOwnOrder (buildCounts (filterMessages msgs)))
  have hstable := sortStable_stable leCountDesc
    (jsOwnOrder (buildCounts (filterMessages msgs)))
  refine (hsorted.and hstable).imp ?_
  rintro a b ⟨h1, h2⟩
  exact ⟨of_decide_eq_true h1, fun heq => h2 (decide_eq_true (le_of_eq heq))⟩

theorem exists_dropWhile_eq_drop (p : α → Bool) (l : List α) :
    ∃ m, l.dropWhile p = l.drop m := by
  induction l with
  | nil => exact ⟨0, rfl⟩
  | cons a l ih =>
    by_cases h : p a = true
    · obtain ⟨m, hm⟩ := ih
      exact ⟨m + 1, by rw [List.dropWhile_cons_of_pos h, List.drop_succ_cons, hm]⟩
    · exact ⟨0, by rw [List.dropWhile_cons_of_neg (by simpa using h), List.drop_zero]⟩

theorem dropWhile_of_backTrim (p : α → Bool) (l : List α)
    (h : l.dropWhile p = l) :
    ((l.reverse.dropWhile p).reverse).dropWhile p =
      (l.reverse.dropWhile p).reverse := by
  obtain ⟨m, hm⟩ := exists_dropWhile_eq_drop p l.reverse
  rw [hm, List.reverse_drop, List.reverse_reverse, List.length_reverse]
  cases hk : l.take (l.length - m) with
  | nil => simp
  | cons b t =>
    cases l with
    | nil => simp at hk
    | cons a l' =>
      cases hn : (a :: l').length - m with
      | zero => rw [hn] at hk; simp at hk
      | succ j =>
        rw [hn, List.take_succ_cons] at hk
        have hb : a = b := (List.cons.injEq .. ▸ hk).1
        have hpa : p a = false := by
          by_contra hpa
          rw [Bool.not_eq_false] at hpa
          rw [List.dropWhile_cons_of_pos hpa] at h
          have hlen := congrArg List.length h
          have hle := (List.dropWhile_sublist (l := l') p).length_le
          simp only [List.length_cons] at hlen
          omega
        rw [List.dropWhile_cons_of_neg (by simp [← hb, hpa])]

theorem jsTrim_idem (s : List Nat) : jsTrim (jsTrim s) = jsTrim s := by
  rw [jsTrim, jsTrim]
  have h1 : ((s.dropWhile isWS).reverse.dropWhile isWS).reverse.dropWhile isWS =
      ((s.dropWhile isWS).reverse.dropWhile isWS).reverse :=
    dropWhile_of_backTrim isWS (s.dropWhile isWS) (List.dropWhile_idempotent ..)
  rw [h1, List.reverse_reverse, List.dropWhile_idempotent]

theorem mem_bumpCount_key (acc : List (List Nat × Nat)) (k : List Nat)
    (e : List Nat × Nat) (h : e ∈ bumpCount acc k) :
    e.1 ∈ acc.map Prod.fst ∨ e.1 = k := by
  induction acc with
  | nil =>
    simp only [bumpCount, List.mem_singleton] at h
    exact Or.inr (h ▸ rfl)
  | cons p rest ih =>
    obtain ⟨k1, n⟩ := p
    by_cases hk : k1 = k
    · rw [bumpCount, if_pos hk] at h
      rcases List.mem_cons.1 h with h | h
      · exact Or.inl (by rw [h]; simp)
      · refine Or.inl ?_
        simp only [List.map_cons, List.mem_cons]
        exact Or.inr (List.mem_map.2 ⟨e, h, rfl⟩)
    · rw [bumpCount, if_neg hk] at h
      rcases List.mem_cons.1 h with h | h
      · exact Or.inl (by rw [h]; simp)
      · rcases ih h with h2 | h2
        · exact Or.inl (by simp only [List.map_cons, List.mem_cons]; exact Or.inr h2)
        · exact Or.inr h2

theorem bumpCount_key_cases (acc : List (List Nat × Nat)) (k : List Nat)
    (x : List Nat) (h : x ∈ (bumpCount acc k).map Prod.fst) :
    x ∈ acc.map Prod.fst ∨ x = k := by
  rcases List.mem_map.1 h with ⟨e, he, hx⟩
  rcases mem_bumpCount_key acc k e he with h2 | h2
  · exact Or.inl (hx ▸ h2)
  · exact Or.inr (hx ▸ h2)

theorem buildCounts_key_from (l : List Message) (acc : List (List Nat × Nat))
    (e : List Nat × Nat)
    (h : e ∈ l.foldl (fun acc m => bumpCount acc m.content) acc) :
    e.1 ∈ acc.map Prod.fst ∨ ∃ m ∈ l, m.content = e.1 := by
  induction l generalizing acc with
  | nil => exact Or.inl (List.mem_map.2 ⟨e, h, rfl⟩)
  | cons m rest ih =>
    rw [List.foldl_cons] at h
    rcases ih (bumpCount acc m.content) h with hacc | ⟨m2, hm2, hc⟩
    · rcases bumpCount_key_cases acc m.content e.1 hacc with h2 | h2
      · exact Or.inl h2
      · exact Or.inr ⟨m, List.mem_cons_self .., h2.symm⟩
    · exact Or.inr ⟨m2, List.mem_cons_of_mem _ hm2, hc⟩

theorem mem_buildCounts_content (msgs : List Message) (e : List Nat × Nat)
    (h : e ∈ buildCounts msgs) : ∃ m ∈ msgs, m.content = e.1 := by
  rcases buildCounts_key_from msgs [] e h with h2 | h2
  · simp at h2
  · exact h2

theorem mem_filterMessages (msgs : List Message) (m : Message)
    (h : m ∈ filterMessages msgs) :
    keepMessage m = true ∧ ∃ m0 ∈ msgs, m.content = jsTrim m0.content := by
  rw [filterMessages] at h
  obtain ⟨hmem, hkeep⟩ := List.mem_filter.1 h
  rcases List.mem_map.1 hmem with ⟨m0, hm0, hmap⟩
  exact ⟨hkeep, m0, hm0, by rw [← hmap]⟩

theorem keepMessage_elim (m : Message) (h : keepMessage m = true) :
    m.content ≠ [] ∧
      containsSeq likedPat (asciiLower m.content) = false ∧
      containsSeq attachPat (asciiLower m.content) = false ∧
      containsSeq likePat (asciiLower m.content) = false ∧
      m.content.all (fun c => c ≤ 127) = true := by
  rw [keepMessage] at h
  simp only [Bool.and_eq_true, Bool.not_eq_true'] at h
  obtain ⟨⟨⟨⟨h1, h2⟩, h3⟩, h4⟩, h5⟩ := h
  refine ⟨?_, h2, h3, h4, h5⟩
  intro hnil
  rw [hnil] at h1
  simp at h1

/-- Claim C7.  `topMessages` returns at most 7 entries, and every returned
entry's label is a trimmed, non-empty, pure-ASCII content string that
does not contain (case-insensitively, via the lower-cased text) any of
the substrings "liked a message", "attachment" or "like". -/
theorem c7_top_messages_policy (msgs : List Message) :
    (getTopMessages msgs).length ≤ 7 ∧
      ∀ e ∈ getTopMessages msgs,
        jsTrim e.1 = e.1 ∧ e.1 ≠ [] ∧
        e.1.all (fun c => c ≤ 127) = true ∧
        containsSeq likedPat (asciiLower e.1) = false ∧
        containsSeq attachPat (asciiLower e.1) = false ∧
        containsSeq likePat (asciiLower e.1) = false := by
  constructor
  · rw [getTopMessages, jsSlice_zero_seven]
    exact List.length_take_le ..
  · intro e he
    rw [getTopMessages, jsSlice_zero_seven] at he
    have he2 : e ∈ sortStable leCountDesc
        (jsOwnOrder (buildCounts (filterMessages msgs))) :=
      (List.take_sublist _ _).subset he
    have he3 : e ∈ jsOwnOrder (buildCounts (filterMessages msgs)) :=
      (sortStable_perm _ _).mem_iff.1 he2
    have he4 : e ∈ buildCounts (filterMessages msgs) := mem_of_mem_jsOwnOrder he3
    obtain ⟨m, hm, hc⟩ := mem_buildCounts_content _ e he4
    obtain ⟨hkeep, m0, _, htrim⟩ := mem_filterMessages msgs m hm
    obtain ⟨h1, h2, h3, h4, h5⟩ := keepMessage_elim m hkeep
    rw [← hc]
    refine ⟨?_, h1, h5, h2, h3, h4⟩
    rw [htrim, jsTrim_idem]

/-- Claim C7 (witness): on a single message with content " hi " the one
returned entry has the trimmed, non-empty, ASCII, unbanned label "hi". -/
theorem c7_witness :
    (getTopMessages [⟨[65], [32, 104, 105, 32], none⟩]).length ≤ 7 ∧
      (jsTrim [104, 105] = [104, 105] ∧ ([104, 105] : List Nat) ≠ [] ∧
        ([104, 105] : List Nat).all (fun c => c ≤ 127) = true ∧
        containsSeq likedPat (asciiLower [104, 105]) = false ∧
        containsSeq attachPat (asciiLower [104, 105]) = false ∧
        containsSeq likePat (asciiLower [104, 105]) = false) :=
  ⟨(c7_top_messages_policy [⟨[65], [32, 104, 105, 32], none⟩]).1,
    (c7_top_messages_policy [⟨[65], [32, 104, 105, 32], none⟩]).2
      ([104, 105], 1) (by decide)⟩

theorem assocLookup_of_nodup (data : List (List Nat × List Message))
    (hnd : (data.map Prod.fst).Nodup) (p : List Nat × List Message)
    (hp : p ∈ data) : assocLookup data p.1 = some p.2 := by
  induction data with
  | nil => simp at hp
  | cons q rest ih =>
    obtain ⟨k, v⟩ := q
    rw [List.map_cons, List.nodup_cons] at hnd
    rcases List.mem_cons.1 hp with hp | hp
    · rw [hp, assocLookup, if_pos rfl]
    · have hne : k ≠ p.1 := by
        intro hkp
        exact hnd.1 (hkp ▸ List.mem_map.2 ⟨p, hp, rfl⟩)
      rw [assocLookup, if_neg hne]
      exact ih hnd.2 hp

/-- Claim C8.  `topSenders` (the `getChartData` ranking) returns at most 7
entries ordered descending by count, and each entry's value is the full
length of that sender's message sequence in the mapping — no content
filtering is applied, so a message whose content would be excluded from
`topMessages` (an emoji, say) still counts toward its sender's total. -/
theorem c8_top_senders_spec (data : List (List Nat × List Message))
    (hnd : (data.map Prod.fst).Nodup) :
    (getChartData data).length ≤ 7 ∧
      (getChartData data).Pairwise (fun a b => b.2 ≤ a.2) ∧
      ∀ e ∈ getChartData data, ∃ p ∈ data, e.1 = p.1 ∧ e.2 = p.2.length := by
  refine ⟨?_, ?_, ?_⟩
  · rw [getChartData, jsSlice_zero_seven]
    exact List.length_take_le ..
  · rw [getChartData, jsSlice_zero_seven]
    refine List.Pairwise.sublist (List.take_sublist _ _) ?_
    have hsorted := sortStable_sorted leCountDesc
      (fun a b => by
        rcases Nat.le_total a.2 b.2 with h | h
        · exact Or.inr (decide_eq_true h)
        · exact Or.inl (decide_eq_true h))
      (fun a b c hab hbc =>
        decide_eq_true (le_trans (of_decide_eq_true hbc) (of_decide_eq_true hab)))
      (((jsOwnOrder data).map fun p => p.1).map fun u =>
        (u, ((assocLookup data u).getD []).length))
    exact hsorted.imp fun hab => of_decide_eq_true hab
  · intro e he
    rw [getChartData, jsSlice_zero_seven] at he
    have he2 := (List.take_sublist _ _).subset he
    have he3 := (sortStable_perm _ _).mem_iff.1 he2
    rcases List.mem_map.1 he3 with ⟨u, hu, heq⟩
    rcases List.mem_map.1 hu with ⟨q, hq, hq1⟩
    have hqdata : q ∈ data := mem_of_mem_jsOwnOrder hq
    have hlook : assocLookup data q.1 = some q.2 :=
      assocLookup_of_nodup data hnd q hqdata
    refine ⟨q, hqdata, ?_, ?_⟩
    · rw [← heq, ← hq1]
    · rw [← heq, ← hq1, hlook]
      simp

/-- Claim C8 (witness): sender A's count is 2 even though the emoji
message would be excluded by the `topMessages` content filter. -/
theorem c8_witness :
    ((chartData.map Prod.fst).Nodup ∧ (getChartData chartData).length ≤ 7) ∧
      ∃ p ∈ chartData, (([65] : List Nat), (2 : Nat)).1 = p.1 ∧
        (([65] : List Nat), (2 : Nat)).2 = p.2.length :=
  ⟨⟨by decide, (c8_top_senders_spec chartData (by decide)).1⟩,
    (c8_top_senders_spec chartData (by decide)).2.2 ([65], 2) (by decide)⟩

theorem replaceEscapes_of_no_escape (s : List Nat)
    (h : hasEscape s = false) : replaceEscapes s = s := by
  induction s using replaceEscapes.induct with
  | case1 a b c d rest hhex ih =>
    rw [hasEscape, hhex] at h
    simp at h
  | case2 a b c d rest hhex ih =>
    rw [hasEscape] at h
    simp only [Bool.or_eq_false_iff] at h
    rw [replaceEscapes, if_neg (by simp [hhex]), ih h.2]
  | case3 x rest hx ih =>
    have h2 : hasEscape rest = false := by
      rw [hasEscape] at h
      · exact h
      · exact hx
    rw [replaceEscapes]
    · rw [ih h2]
    · exact hx
  | case4 => rfl

theorem ucs2decode_of_ascii (s : List Nat)
    (h : s.all (fun c => c ≤ 127) = true) : ucs2decode s = s := by
  induction s using ucs2decode.induct with
  | case1 => rfl
  | case2 c =>
    rw [ucs2decode]
  | case3 c c2 rest2 hs hs2 ih =>
    rw [List.all_cons] at h
    simp only [Bool.and_eq_true, decide_eq_true_eq] at h
    omega
  | case4 c c2 rest2 hs hs2 ih =>
    rw [List.all_cons] at h
    simp only [Bool.and_eq_true, decide_eq_true_eq] at h
    omega
  | case5 c c2 rest2 hs ih =>
    rw [List.all_cons] at h
    simp only [Bool.and_eq_true] at h
    rw [ucs2decode, if_neg hs, ih h.2]

theorem map_mod256_of_ascii (s : List Nat)
    (h : s.all (fun c => c ≤ 127) = true) :
    s.map (fun c => c % 256) = s := by
  induction s with
  | nil => rfl
  | cons c rest ih =>
    rw [List.all_cons] at h
    simp only [Bool.and_eq_true, decide_eq_true_eq] at h
    rw [List.map_cons, ih h.2, Nat.mod_eq_of_lt (by omega)]

theorem utf8decodeAux_of_ascii (s : List Nat) (fuel : Nat)
    (hfuel : s.length ≤ fuel)
    (h : s.all (fun c => c ≤ 127) = true) : utf8decodeAux fuel s = some s := by
  induction s generalizing fuel with
  | nil => rw [utf8decodeAux]
  | cons b rest ih =>
    rw [List.all_cons] at h
    simp only [Bool.and_eq_true, decide_eq_true_eq] at h
    rw [List.length_cons] at hfuel
    cases fuel with
    | zero => omega
    | succ fuel =>
      rw [utf8decodeAux.eq_def]
      have hb : b < 128 := by omega
      simp only [hb, if_true, ih fuel (by omega) h.2, Option.map_some']

theorem utf8decodeBytes_of_ascii (s : List Nat)
    (h : s.all (fun c => c ≤ 127) = true) : utf8decodeBytes s = some s :=
  utf8decodeAux_of_ascii s s.length le_rfl h

theorem flatten_ucs2encode_of_ascii (s : List Nat)
    (h : s.all (fun c => c ≤ 127) = true) :
    (s.map ucs2encode).flatten = s := by
  induction s with
  | nil => rfl
  | cons c rest ih =>
    rw [List.all_cons] at h
    simp only [Bool.and_eq_true, decide_eq_true_eq] at h
    rw [List.map_cons, List.flatten_cons, ucs2encode, if_neg (by omega), ih h.2,
      List.singleton_append]

theorem utf8DecodeStr_of_ascii (s : List Nat)
    (h : s.all (fun c => c ≤ 127) = true) : utf8DecodeStr s = some s := by
  rw [utf8DecodeStr, ucs2decode_of_ascii s h, map_mod256_of_ascii s h,
    utf8decodeBytes_of_ascii s h, Option.map_some', flatten_ucs2encode_of_ascii s h]

/-- Claim C9.  Text Repair (`decodeUnicode`, the spec's `repair`) is the
identity on clean ASCII text: on a string of 7-bit ASCII code units
containing no literal `\uXXXX` escape, the escape-replacement pass
changes nothing and the UTF-8 decode of pure ASCII bytes is the
identity, so the repaired string is the original (and no exception is
thrown). -/
theorem c9_repair_identity_ascii (s : List Nat)
    (hascii : s.all (fun c => c ≤ 127) = true)
    (hesc : hasEscape s = false) : decodeUnicode s = some s := by
  rw [decodeUnicode]
  by_cases hnil : s.isEmpty
  · rw [if_pos hnil]
    rw [List.isEmpty_iff] at hnil
    rw [hnil]
  · rw [if_neg hnil, replaceEscapes_of_no_escape s hesc,
      utf8DecodeStr_of_ascii s hascii]

/-- Claim C9 (witness): "hello". -/
theorem c9_witness :
    ([104, 101, 108, 108, 111] : List Nat).all (fun c => c ≤ 127) = true ∧
      hasEscape [104, 101, 108, 108, 111] = false ∧
      decodeUnicode [104, 101, 108, 108, 111] = some [104, 101, 108, 108, 111] :=
  ⟨by decide, by decide,
    c9_repair_identity_ascii [104, 101, 108, 108, 111] (by decide) (by decide)⟩
